import Mathlib

/-
Verification of the resizable-buffer controller (src/resizablebuffer.c).

The controller maps a logically flat byte buffer onto a sequence of
fixed-size blocks held by an external block store (the bufferqueue
collaborator).  All machine integers in the source are uint32_t; they are
embedded as Nat with an explicit reduction modulo 2^32 at the arithmetic
operations where the source can overflow (the addition offs + size in the
copy routines and the multiplication block_size * block_num that refreshes
the cached capacity).
-/

namespace RBuf

/-- The u32 modulus: arithmetic in the source is uint32_t. -/
def U32 : Nat := 4294967296

/-- Result codes of the bufferqueue collaborator (BQUE_OK, BQUE_ERR,
BQUE_ERR_NO_MEM). -/
inductive bque_res where
  | ok
  | err
  | err_no_mem
deriving DecidableEq, Repr

/-- Result codes of the resizable buffer (RBUF_OK, RBUF_ERR,
RBUF_ERR_NO_MEM, RBUF_ERR_BAD_OFFS, RBUF_ERR_BAD_SIZE). -/
inductive rbuf_res where
  | ok
  | err
  | err_no_mem
  | err_bad_offs
  | err_bad_size
deriving DecidableEq, Repr

/-- Context of the resizable buffer (struct _rbuf_ctx).  The bufferqueue it
owns is embedded as the list of blocks it currently holds, each block a
list of byte values.  The remaining fields are the conf and cache fields of
the C struct. -/
structure rbuf_ctx where
  bque : List (List Nat)
  block_size : Nat
  size_max : Nat
  block_num : Nat
  buff_cap : Nat
  buff_size : Nat
  last_block_buff_size : Nat
deriving DecidableEq, Repr

/-- Status snapshot (struct _rbuf_stat). -/
structure rbuf_stat where
  block_num : Nat
  buff_size : Nat
deriving DecidableEq, Repr

/-- Modelled from the spec: the bufferqueue collaborator (bufferqueue.c is
not part of src/).  bque_enqueue appends one block of the given size at the
tail; the source passes NULL initial contents, modelled as zero bytes. -/
def bque_enqueue (blocks : List (List Nat)) (size : Nat) : List (List Nat) :=
  blocks ++ [List.replicate size 0]

/-- Modelled from the spec: bque_forfeit removes and frees the tail block;
it fails when the store is empty. -/
def bque_forfeit (blocks : List (List Nat)) : Option (List (List Nat)) :=
  if blocks.isEmpty then none else some blocks.dropLast

/-- Modelled from the spec: bque_item returns a view of the block at the
given index; the index must be below the block count, else Generic. -/
def bque_item (blocks : List (List Nat)) (idx : Nat) : Option (List Nat) :=
  blocks.get? idx

/-- Allocation oracle: result of the i-th bque_enqueue call inside one
rbuf_resize call.  The environment where allocation never fails is
no_fail. -/
def alloc_oracle : Type := Nat → bque_res

/-- The environment in which every allocation succeeds. -/
def no_fail : alloc_oracle := fun _ => bque_res.ok

/-- memcpy(dst + offs, src, src.length): overwrite the bytes of dst from
position offs on with src. -/
def list_write (dst : List Nat) (offs : Nat) (src : List Nat) : List Nat :=
  dst.take offs ++ src ++ dst.drop (offs + src.length)

/-- The len bytes of l starting at position offs. -/
def sub_list (l : List Nat) (offs len : Nat) : List Nat :=
  (l.drop offs).take len

/-- The growth loop of rbuf_resize: n more calls to bque_enqueue, the i-th
consulting the oracle; on the first failure the loop aborts, keeping the
blocks already appended. -/
def grow_blocks (orc : alloc_oracle) (bs : Nat) : Nat → Nat → List (List Nat) → bque_res × List (List Nat)
  | _, 0, blocks => (bque_res.ok, blocks)
  | i, n + 1, blocks =>
    match orc i with
    | bque_res.ok => grow_blocks orc bs (i + 1) n (bque_enqueue blocks bs)
    | f => (f, blocks)

/-- The shrink loop of rbuf_resize: n calls to bque_forfeit; a failure
aborts the loop. -/
def shrink_blocks : Nat → List (List Nat) → Bool × List (List Nat)
  | 0, blocks => (true, blocks)
  | n + 1, blocks =>
    match bque_forfeit blocks with
    | none => (false, blocks)
    | some blocks2 => shrink_blocks n blocks2

/-- rbuf_resize (src/resizablebuffer.c:137-193), parametrized by the
allocation oracle for its bque_enqueue calls. -/
def rbuf_resize_o (orc : alloc_oracle) (ctx : rbuf_ctx) (size : Nat) : rbuf_res × rbuf_ctx :=
  if size > ctx.size_max then (rbuf_res.err_bad_size, ctx)
  else
    let q := size / ctx.block_size
    let r := size % ctx.block_size
    let nbn := q + (if r ≠ 0 then 1 else 0)
    let last := if q ≠ 0 ∧ r = 0 then ctx.block_size else r
    if nbn > ctx.block_num then
      match grow_blocks orc ctx.block_size 0 (nbn - ctx.block_num) ctx.bque with
      | (bque_res.ok, blocks2) =>
        (rbuf_res.ok,
         { ctx with bque := blocks2, block_num := nbn,
                    buff_cap := ctx.block_size * nbn % U32,
                    buff_size := size, last_block_buff_size := last })
      | (bque_res.err_no_mem, blocks2) => (rbuf_res.err_no_mem, { ctx with bque := blocks2 })
      | (bque_res.err, blocks2) => (rbuf_res.err, { ctx with bque := blocks2 })
    else if nbn < ctx.block_num then
      match shrink_blocks (ctx.block_num - nbn) ctx.bque with
      | (false, blocks2) => (rbuf_res.err, { ctx with bque := blocks2 })
      | (true, blocks2) =>
        (rbuf_res.ok,
         { ctx with bque := blocks2, block_num := nbn,
                    buff_cap := ctx.block_size * nbn % U32,
                    buff_size := size, last_block_buff_size := last })
    else
      (rbuf_res.ok, { ctx with buff_size := size, last_block_buff_size := last })

/-- rbuf_resize in the environment where allocation never fails. -/
def rbuf_resize (ctx : rbuf_ctx) (size : Nat) : rbuf_res × rbuf_ctx :=
  rbuf_resize_o no_fail ctx size

/-- rbuf_new (src/resizablebuffer.c:59-98): fresh context, cache zeroed by
memset. -/
def rbuf_new (block_size size_max : Nat) : rbuf_ctx :=
  { bque := [], block_size := block_size, size_max := size_max,
    block_num := 0, buff_cap := 0, buff_size := 0, last_block_buff_size := 0 }

/-- rbuf_status (src/resizablebuffer.c:121-129). -/
def rbuf_status (ctx : rbuf_ctx) : rbuf_stat :=
  { block_num := ctx.block_num, buff_size := ctx.buff_size }

/-- The scatter loop of rbuf_copy_from (src/resizablebuffer.c:254-270):
n iterations, the current one on block i, threading the external-buffer
offset and the remaining size. -/
def copy_from_loop (bs : Nat) (buff : List Nat) : Nat → Nat → Nat → Nat → List (List Nat) → Bool × List (List Nat)
  | 0, _, _, _, blocks => (true, blocks)
  | n + 1, i, buff_offs, rest_size, blocks =>
    match bque_item blocks i with
    | none => (false, blocks)
    | some blk =>
      let curt_size := if rest_size > bs then bs else rest_size
      copy_from_loop bs buff n (i + 1) (buff_offs + curt_size) (rest_size - curt_size)
        (blocks.set i (list_write blk 0 (sub_list buff buff_offs curt_size)))

/-- The block-splitting copy phase of rbuf_copy_from
(src/resizablebuffer.c:227-273), run after the implicit-resize check on the
possibly resized context ctx1.  The loop bound is the u32 value
ending_block_idx + 1 of the source. -/
def copy_from_phase (ctx1 : rbuf_ctx) (buff : List Nat) (offs new_size size : Nat) : rbuf_res × rbuf_ctx :=
  let bs := ctx1.block_size
  let starting_block_idx := offs / bs
  let ending_block_idx := new_size / bs
  if starting_block_idx = ending_block_idx then
    match bque_item ctx1.bque starting_block_idx with
    | none => (rbuf_res.err, ctx1)
    | some blk =>
      let block_offs := offs % bs
      (rbuf_res.ok,
       { ctx1 with bque := ctx1.bque.set starting_block_idx (list_write blk block_offs (sub_list buff 0 size)) })
  else
    match bque_item ctx1.bque starting_block_idx with
    | none => (rbuf_res.err, ctx1)
    | some blk =>
      let block_offs := offs % bs
      let curt_size := bs - block_offs
      let blocks1 := ctx1.bque.set starting_block_idx (list_write blk block_offs (sub_list buff 0 curt_size))
      match copy_from_loop bs buff ((ending_block_idx + 1) % U32 - (starting_block_idx + 1))
              (starting_block_idx + 1) curt_size (size - curt_size) blocks1 with
      | (false, blocks2) => (rbuf_res.err, { ctx1 with bque := blocks2 })
      | (true, blocks2) => (rbuf_res.ok, { ctx1 with bque := blocks2 })

/-- rbuf_copy_from (src/resizablebuffer.c:203-274), parametrized by the
allocation oracle used by the implicit resize. -/
def rbuf_copy_from_o (orc : alloc_oracle) (ctx : rbuf_ctx) (buff : List Nat) (offs size : Nat) : rbuf_res × rbuf_ctx :=
  let new_size := (offs + size) % U32
  let step := if new_size > ctx.buff_cap then rbuf_resize_o orc ctx new_size else (rbuf_res.ok, ctx)
  match step with
  | (rbuf_res.ok, ctx1) => copy_from_phase ctx1 buff offs new_size size
  | (res, ctx1) => (res, ctx1)

/-- rbuf_copy_from in the environment where allocation never fails. -/
def rbuf_copy_from (ctx : rbuf_ctx) (buff : List Nat) (offs size : Nat) : rbuf_res × rbuf_ctx :=
  rbuf_copy_from_o no_fail ctx buff offs size

/-- rbuf_append (src/resizablebuffer.c:283-291). -/
def rbuf_append (ctx : rbuf_ctx) (buff : List Nat) (size : Nat) : rbuf_res × rbuf_ctx :=
  rbuf_copy_from ctx buff ctx.buff_size size

/-- The gather loop of rbuf_copy_to (src/resizablebuffer.c:348-364). -/
def copy_to_loop (bs : Nat) : Nat → Nat → Nat → Nat → List (List Nat) → List Nat → Bool × List Nat
  | 0, _, _, _, _, buff => (true, buff)
  | n + 1, i, buff_offs, rest_size, blocks, buff =>
    match bque_item blocks i with
    | none => (false, buff)
    | some blk =>
      let curt_size := if rest_size > bs then bs else rest_size
      copy_to_loop bs n (i + 1) (buff_offs + curt_size) (rest_size - curt_size) blocks
        (list_write buff buff_offs (sub_list blk 0 curt_size))

/-- rbuf_copy_to (src/resizablebuffer.c:301-368).  The context is passed
through unchanged: the source never writes to it.  The external destination
buffer is threaded explicitly. -/
def rbuf_copy_to (ctx : rbuf_ctx) (buff : List Nat) (offs size : Nat) : rbuf_res × rbuf_ctx × List Nat :=
  if offs > ctx.buff_size then (rbuf_res.err_bad_offs, ctx, buff)
  else
    let ending_byte_no := (offs + size) % U32
    if ending_byte_no > ctx.buff_size then (rbuf_res.err_bad_size, ctx, buff)
    else
      let bs := ctx.block_size
      let starting_block_idx := offs / bs
      let ending_block_idx := ending_byte_no / bs
      if starting_block_idx = ending_block_idx then
        match bque_item ctx.bque starting_block_idx with
        | none => (rbuf_res.err, ctx, buff)
        | some blk =>
          let block_offs := offs % bs
          (rbuf_res.ok, ctx, list_write buff 0 (sub_list blk block_offs size))
      else
        match bque_item ctx.bque starting_block_idx with
        | none => (rbuf_res.err, ctx, buff)
        | some blk =>
          let block_offs := offs % bs
          let curt_size := bs - block_offs
          let buff1 := list_write buff 0 (sub_list blk block_offs curt_size)
          match copy_to_loop bs ((ending_block_idx + 1) % U32 - (starting_block_idx + 1))
                  (starting_block_idx + 1) curt_size (size - curt_size) ctx.bque buff1 with
          | (false, buff2) => (rbuf_res.err, ctx, buff2)
          | (true, buff2) => (rbuf_res.ok, ctx, buff2)

/-- Number of blocks required for a logical size, as computed by
rbuf_resize. -/
def required_blocks (bs size : Nat) : Nat :=
  size / bs + (if size % bs ≠ 0 then 1 else 0)

/-- The context produced by a successful rbuf_resize in the no-failure
environment: zero-filled blocks appended at the tail, or blocks released
from the tail, and the cached fields recomputed as in the source. -/
def resized_ctx (ctx : rbuf_ctx) (size : Nat) : rbuf_ctx :=
  let nbn := required_blocks ctx.block_size size
  { ctx with
    bque := if ctx.block_num ≤ nbn
            then ctx.bque ++ List.replicate (nbn - ctx.block_num) (List.replicate ctx.block_size 0)
            else ctx.bque.take nbn,
    block_num := nbn,
    buff_cap := ctx.block_size * nbn,
    buff_size := size,
    last_block_buff_size :=
      if size / ctx.block_size ≠ 0 ∧ size % ctx.block_size = 0 then ctx.block_size
      else size % ctx.block_size }

/-- Well-formed controller state: the invariants of spec section 3 for a
reachable buffer (positive block size, configuration small enough that the
capacity arithmetic never wraps, cached fields consistent with the held
blocks). -/
structure WF (ctx : rbuf_ctx) : Prop where
  hbs : 0 < ctx.block_size
  hsm : ctx.size_max + ctx.block_size ≤ U32
  hlen : ctx.bque.length = ctx.block_num
  hunif : ∀ b ∈ ctx.bque, b.length = ctx.block_size
  hcap : ctx.buff_cap = ctx.block_size * ctx.block_num
  hsz : ctx.buff_size ≤ ctx.buff_cap
  hcapU : ctx.buff_cap < U32

/-! ### List lemmas for the copy arithmetic -/

theorem list_write_length (dst src : List Nat) (offs : Nat) (h : offs + src.length ≤ dst.length) :
    (list_write dst offs src).length = dst.length := by
  simp only [list_write, List.length_append, List.length_take, List.length_drop]
  omega

theorem list_write_nil (dst : List Nat) (offs : Nat) : list_write dst offs [] = dst := by
  simp [list_write]

theorem list_write_append (J A B : List Nat) (p : Nat) (h : p + A.length ≤ J.length) :
    list_write (list_write J p A) (p + A.length) B = list_write J p (A ++ B) := by
  have hlen : (J.take p ++ A).length = p + A.length := by
    simp only [List.length_append, List.length_take]
    omega
  have h1 : list_write J p A = (J.take p ++ A) ++ J.drop (p + A.length) := by
    simp [list_write, List.append_assoc]
  have h2 : p + A.length + B.length = (J.take p ++ A).length + B.length := by rw [hlen]
  rw [list_write, h1, List.take_left' hlen, h2, List.drop_append, List.drop_drop]
  simp [list_write, List.append_assoc, Nat.add_assoc]

theorem sub_list_length (l : List Nat) (offs len : Nat) (h : offs + len ≤ l.length) :
    (sub_list l offs len).length = len := by
  simp only [sub_list, List.length_take, List.length_drop]
  omega

theorem sub_list_zero (l : List Nat) (offs : Nat) : sub_list l offs 0 = [] := rfl

theorem sub_list_split (l : List Nat) (o a b : Nat) :
    sub_list l o (a + b) = sub_list l o a ++ sub_list l (o + a) b := by
  simp [sub_list, List.take_add, List.drop_drop]

theorem sub_list_of_write (dst src : List Nat) (o : Nat) (h : o + src.length ≤ dst.length) :
    sub_list (list_write dst o src) o src.length = src := by
  have h1 : (dst.take o).length = o := by
    simp only [List.length_take]; omega
  simp only [sub_list, list_write, List.append_assoc]
  rw [List.drop_left' h1, List.take_left]

/-! ### Flat view of the block sequence -/

theorem flatten_length_uniform (blocks : List (List Nat)) (bs : Nat)
    (h : ∀ b ∈ blocks, b.length = bs) : blocks.flatten.length = blocks.length * bs := by
  induction blocks with
  | nil => simp
  | cons hd tl ih =>
    have hhd : hd.length = bs := h hd (by simp)
    have htl : ∀ b ∈ tl, b.length = bs := fun b hb => h b (List.mem_cons_of_mem _ hb)
    simp only [List.flatten_cons, List.length_append, List.length_cons, ih htl, hhd,
      Nat.succ_mul]
    omega

theorem flatten_drop_get (blocks : List (List Nat)) (bs : Nat) :
    ∀ (i : Nat) (blk : List Nat), (∀ b ∈ blocks, b.length = bs) → blocks.get? i = some blk →
    blocks.flatten.drop (i * bs) = blk ++ (blocks.drop (i + 1)).flatten := by
  induction blocks with
  | nil => intro i blk _ hget; simp [List.get?] at hget
  | cons hd tl ih =>
    intro i blk hunif hget
    cases i with
    | zero =>
      simp only [List.get?] at hget
      cases hget
      simp
    | succ n =>
      have hhd : hd.length = bs := hunif hd (by simp)
      have htl : ∀ b ∈ tl, b.length = bs := fun b hb => hunif b (List.mem_cons_of_mem _ hb)
      have hget2 : tl.get? n = some blk := hget
      have harith : (n + 1) * bs = hd.length + n * bs := by rw [hhd]; ring
      simp only [List.flatten_cons, List.drop_succ_cons]
      rw [harith, List.drop_append, ih n blk htl hget2]

theorem sub_list_flatten_block (blocks : List (List Nat)) (bs i o len : Nat) (blk : List Nat)
    (hunif : ∀ b ∈ blocks, b.length = bs) (hget : blocks.get? i = some blk)
    (hol : o + len ≤ bs) :
    sub_list blocks.flatten (i * bs + o) len = sub_list blk o len := by
  have hblk : blk.length = bs := by
    have hmem : blk ∈ blocks := by
      rcases List.get?_eq_some.mp hget with ⟨hlt, hg⟩
      rw [← hg]; exact List.get_mem blocks _ hlt
    exact hunif blk hmem
  have h1 : blocks.flatten.drop (i * bs) = blk ++ (blocks.drop (i + 1)).flatten :=
    flatten_drop_get blocks bs i blk hunif hget
  have h2 : blk.drop o = (blk.drop o).take len ++ (blk.drop o).drop len :=
    (List.take_append_drop len (blk.drop o)).symm
  have hlen2 : ((blk.drop o).take len).length = len := by
    simp only [List.length_take, List.length_drop, hblk]
    omega
  calc sub_list blocks.flatten (i * bs + o) len
      = ((blocks.flatten.drop (i * bs)).drop o).take len := by
        simp [sub_list, List.drop_drop]
    _ = ((blk ++ (blocks.drop (i + 1)).flatten).drop o).take len := by rw [h1]
    _ = (blk.drop o ++ (blocks.drop (i + 1)).flatten).take len := by
        rw [List.drop_append_of_le_length (by omega)]
    _ = ((blk.drop o).take len ++ ((blk.drop o).drop len ++ (blocks.drop (i + 1)).flatten)).take len := by
        rw [← List.append_assoc, ← h2]
    _ = (blk.drop o).take len := List.take_left' hlen2
    _ = sub_list blk o len := rfl

theorem flatten_set_write (blocks : List (List Nat)) (bs : Nat) :
    ∀ (i o : Nat) (src blk : List Nat), (∀ b ∈ blocks, b.length = bs) →
    blocks.get? i = some blk → o + src.length ≤ bs →
    (blocks.set i (list_write blk o src)).flatten
      = list_write blocks.flatten (i * bs + o) src := by
  induction blocks with
  | nil => intro i o src blk _ hget; simp [List.get?] at hget
  | cons hd tl ih =>
    intro i o src blk hunif hget ho
    have hhd : hd.length = bs := hunif hd (by simp)
    have htl : ∀ b ∈ tl, b.length = bs := fun b hb => hunif b (List.mem_cons_of_mem _ hb)
    cases i with
    | zero =>
      simp only [List.get?] at hget
      cases hget
      have htake : (hd ++ tl.flatten).take o = hd.take o :=
        List.take_append_of_le_length (by omega)
      have hdrop : (hd ++ tl.flatten).drop (o + src.length) = hd.drop (o + src.length) ++ tl.flatten :=
        List.drop_append_of_le_length (by omega)
      simp only [List.set_cons_zero, List.flatten_cons, list_write, Nat.zero_mul, Nat.zero_add,
        htake, hdrop, List.append_assoc]
    | succ n =>
      have hget2 : tl.get? n = some blk := hget
      have harith : (n + 1) * bs + o = hd.length + (n * bs + o) := by rw [hhd]; ring
      have harith2 : (n + 1) * bs + o + src.length = hd.length + (n * bs + o + src.length) := by
        rw [hhd]; ring
      simp only [List.set_cons_succ, List.flatten_cons]
      rw [ih n o src blk htl hget2 ho]
      simp only [list_write]
      rw [harith2, harith, List.take_append, List.drop_append]
      simp [List.append_assoc]

/-! ### The resize loops -/

theorem grow_blocks_no_fail (bs : Nat) :
    ∀ (n i : Nat) (blocks : List (List Nat)),
    grow_blocks no_fail bs i n blocks
      = (bque_res.ok, blocks ++ List.replicate n (List.replicate bs 0)) := by
  intro n
  induction n with
  | zero => intro i blocks; simp [grow_blocks]
  | succ m ih =>
    intro i blocks
    have h1 : grow_blocks no_fail bs i (m + 1) blocks
        = grow_blocks no_fail bs (i + 1) m (bque_enqueue blocks bs) := rfl
    rw [h1, ih (i + 1) (bque_enqueue blocks bs), bque_enqueue, List.append_assoc]
    simp [List.replicate_succ]

theorem grow_blocks_fail (orc : alloc_oracle) (bs : Nat) :
    ∀ (k i n : Nat) (blocks : List (List Nat)),
    (∀ j, j < k → orc (i + j) = bque_res.ok) → orc (i + k) ≠ bque_res.ok → k < n →
    grow_blocks orc bs i n blocks
      = (orc (i + k), blocks ++ List.replicate k (List.replicate bs 0)) := by
  intro k
  induction k with
  | zero =>
    intro i n blocks _ hfail hn
    match n, hn with
    | m + 1, _ =>
      simp only [grow_blocks]
      match h : orc (i + 0) with
      | bque_res.ok => exact absurd h hfail
      | bque_res.err => simp [Nat.add_zero] at h; simp [h]
      | bque_res.err_no_mem => simp [Nat.add_zero] at h; simp [h]
  | succ m ih =>
    intro i n blocks hpre hfail hn
    match n, hn with
    | l + 1, hn =>
      have h0 : orc i = bque_res.ok := by
        have := hpre 0 (Nat.succ_pos m)
        simpa using this
      simp only [grow_blocks, h0]
      have hpre2 : ∀ j, j < m → orc (i + 1 + j) = bque_res.ok := by
        intro j hj
        have := hpre (j + 1) (by omega)
        rwa [show i + (j + 1) = i + 1 + j by ring] at this
      have hfail2 : orc (i + 1 + m) ≠ bque_res.ok := by
        rwa [show i + 1 + m = i + (m + 1) by ring]
      rw [ih (i + 1) l (bque_enqueue blocks bs) hpre2 hfail2 (by omega)]
      rw [show i + 1 + m = i + (m + 1) by ring]
      simp [bque_enqueue, List.append_assoc, List.replicate_succ]

theorem shrink_blocks_ok :
    ∀ (n : Nat) (blocks : List (List Nat)), n ≤ blocks.length →
    shrink_blocks n blocks = (true, blocks.take (blocks.length - n)) := by
  intro n
  induction n with
  | zero => intro blocks _; simp [shrink_blocks]
  | succ m ih =>
    intro blocks hn
    have hne : blocks.isEmpty = false := by
      cases blocks with
      | nil => simp at hn
      | cons hd tl => rfl
    have hforf : bque_forfeit blocks = some blocks.dropLast := by
      simp [bque_forfeit, hne]
    have hstep : shrink_blocks (m + 1) blocks = shrink_blocks m blocks.dropLast := by
      simp only [shrink_blocks, hforf]
    rw [hstep, ih blocks.dropLast (by simp only [List.length_dropLast]; omega)]
    have hdl : blocks.dropLast.length = blocks.length - 1 := by simp
    rw [hdl, List.dropLast_eq_take, List.take_take]
    have hmin : (blocks.length - 1 - m) ⊓ (blocks.length - 1) = blocks.length - (m + 1) := by
      rw [min_eq_left (by omega)]
      omega
    rw [hmin]

/-! ### Characterization of rbuf_resize -/

theorem required_blocks_mul_le (bs size : Nat) (hbs : 0 < bs) :
    bs * required_blocks bs size ≤ size + bs - 1 := by
  have hqm : bs * (size / bs) + size % bs = size := Nat.div_add_mod size bs
  have hr : size % bs < bs := Nat.mod_lt size hbs
  by_cases h0 : size % bs = 0
  · simp only [required_blocks, h0, ne_eq, not_true_eq_false, if_false, Nat.add_zero]
    omega
  · simp only [required_blocks, h0, ne_eq, not_false_eq_true, if_true, Nat.mul_succ]
    omega

theorem le_required_blocks_mul (bs size : Nat) (hbs : 0 < bs) :
    size ≤ bs * required_blocks bs size := by
  have hqm : bs * (size / bs) + size % bs = size := Nat.div_add_mod size bs
  have hr : size % bs < bs := Nat.mod_lt size hbs
  by_cases h0 : size % bs = 0
  · simp only [required_blocks, h0, ne_eq, not_true_eq_false, if_false, Nat.add_zero]
    omega
  · simp only [required_blocks, h0, ne_eq, not_false_eq_true, if_true, Nat.mul_succ]
    omega

theorem required_blocks_mul_lt_U32 (ctx : rbuf_ctx) (size : Nat) (hWF : WF ctx)
    (hsz : size ≤ ctx.size_max) :
    ctx.block_size * required_blocks ctx.block_size size < U32 := by
  have h1 := required_blocks_mul_le ctx.block_size size hWF.hbs
  have h2 := hWF.hsm
  have h3 := hWF.hbs
  omega

theorem rbuf_resize_eq (ctx : rbuf_ctx) (size : Nat) (hWF : WF ctx) (hsz : size ≤ ctx.size_max) :
    rbuf_resize ctx size = (rbuf_res.ok, resized_ctx ctx size) := by
  have hbs := hWF.hbs
  have hnot : ¬ size > ctx.size_max := by omega
  have hmod : ctx.block_size * required_blocks ctx.block_size size % U32
      = ctx.block_size * required_blocks ctx.block_size size :=
    Nat.mod_eq_of_lt (required_blocks_mul_lt_U32 ctx size hWF hsz)
  have hreq : size / ctx.block_size + (if size % ctx.block_size ≠ 0 then 1 else 0)
      = required_blocks ctx.block_size size := rfl
  unfold rbuf_resize rbuf_resize_o
  rw [if_neg hnot]
  simp only [hreq]
  rcases Nat.lt_trichotomy ctx.block_num (required_blocks ctx.block_size size) with hlt | heq | hgt
  · -- growth
    rw [if_pos hlt,
      grow_blocks_no_fail ctx.block_size (required_blocks ctx.block_size size - ctx.block_num) 0 ctx.bque]
    simp only [resized_ctx, hmod, if_pos (Nat.le_of_lt hlt)]
  · -- no structural change
    have hn1 : ¬ required_blocks ctx.block_size size > ctx.block_num := by omega
    have hn2 : ¬ required_blocks ctx.block_size size < ctx.block_num := by omega
    rw [if_neg hn1, if_neg hn2]
    have hcap : ctx.buff_cap = ctx.block_size * required_blocks ctx.block_size size := by
      rw [hWF.hcap, heq]
    have hbq : ctx.bque = ctx.bque
        ++ List.replicate (required_blocks ctx.block_size size - ctx.block_num) (List.replicate ctx.block_size 0) := by
      rw [heq, Nat.sub_self]
      simp
    simp only [resized_ctx, if_pos (Nat.le_of_eq heq), Prod.mk.injEq, rbuf_ctx.mk.injEq]
    cases ctx with
    | mk bque block_size size_max block_num buff_cap buff_size last_block_buff_size =>
      simp only [rbuf_ctx.mk.injEq] at *
      exact ⟨trivial, hbq, trivial, trivial, heq, hcap, trivial, trivial⟩
  · -- shrink
    have hn1 : ¬ required_blocks ctx.block_size size > ctx.block_num := by omega
    have hlen2 : ctx.block_num - required_blocks ctx.block_size size ≤ ctx.bque.length := by
      rw [hWF.hlen]
      omega
    have htk : ctx.bque.length - (ctx.block_num - required_blocks ctx.block_size size)
        = required_blocks ctx.block_size size := by
      rw [hWF.hlen]
      omega
    have hnle : ¬ ctx.block_num ≤ required_blocks ctx.block_size size := by omega
    rw [if_neg hn1, if_pos hgt,
      shrink_blocks_ok (ctx.block_num - required_blocks ctx.block_size size) ctx.bque hlen2]
    simp only [htk, resized_ctx, hmod, if_neg hnle]

theorem resized_ctx_WF (ctx : rbuf_ctx) (size : Nat) (hWF : WF ctx) (hsz : size ≤ ctx.size_max) :
    WF (resized_ctx ctx size) := by
  have hbs := hWF.hbs
  have hmul := required_blocks_mul_le ctx.block_size size hWF.hbs
  constructor
  · exact hWF.hbs
  · exact hWF.hsm
  · simp only [resized_ctx]
    split
    · simp only [List.length_append, List.length_replicate, hWF.hlen]
      omega
    · simp only [List.length_take, hWF.hlen]
      omega
  · simp only [resized_ctx]
    intro b hb
    split at hb
    · rcases List.mem_append.mp hb with hb1 | hb2
      · exact hWF.hunif b hb1
      · rw [List.eq_of_mem_replicate hb2]
        exact List.length_replicate _ _
    · exact hWF.hunif b (List.take_subset _ _ hb)
  · rfl
  · exact le_required_blocks_mul ctx.block_size size hWF.hbs
  · exact required_blocks_mul_lt_U32 ctx size hWF hsz

/-! ### Characterization of the copy loops -/

theorem copy_from_loop_eq (bs : Nat) (buff : List Nat) :
    ∀ (n i bo rest : Nat) (blocks : List (List Nat)),
    (∀ b ∈ blocks, b.length = bs) → i + n ≤ blocks.length → rest ≤ n * bs →
    bo + rest ≤ buff.length →
    ∃ blocks2, copy_from_loop bs buff n i bo rest blocks = (true, blocks2) ∧
      blocks2.flatten = list_write blocks.flatten (i * bs) (sub_list buff bo rest) ∧
      (∀ b ∈ blocks2, b.length = bs) ∧ blocks2.length = blocks.length := by
  intro n
  induction n with
  | zero =>
    intro i bo rest blocks hunif hiB hrest hbuf
    have hr0 : rest = 0 := by omega
    refine ⟨blocks, rfl, ?_, hunif, rfl⟩
    rw [hr0, sub_list_zero, list_write_nil]
  | succ m ih =>
    intro i bo rest blocks hunif hiB hrest hbuf
    have hilt : i < blocks.length := by omega
    have hget : blocks.get? i = some (blocks.get ⟨i, hilt⟩) := List.get?_eq_get hilt
    set blk := blocks.get ⟨i, hilt⟩ with hblkdef
    have hblk : blk.length = bs := hunif blk (List.get_mem blocks _ hilt)
    have hflen : blocks.flatten.length = blocks.length * bs := flatten_length_uniform blocks bs hunif
    have hmul1 : (i + 1) * bs = i * bs + bs := by ring
    have hmul2 : i * bs + bs ≤ blocks.length * bs := by
      have : i + 1 ≤ blocks.length := by omega
      calc i * bs + bs = (i + 1) * bs := by ring
        _ ≤ blocks.length * bs := Nat.mul_le_mul_right bs this
    have hms : (m + 1) * bs = m * bs + bs := by ring
    by_cases hgtb : rest > bs
    · -- full block written, loop continues with a nonzero remainder
      have hsub : (sub_list buff bo bs).length = bs := sub_list_length buff bo bs (by omega)
      have hstep : copy_from_loop bs buff (m + 1) i bo rest blocks
          = copy_from_loop bs buff m (i + 1) (bo + bs) (rest - bs)
              (blocks.set i (list_write blk 0 (sub_list buff bo bs))) := by
        simp only [copy_from_loop, bque_item, hget, if_pos hgtb]
      set blocks1 := blocks.set i (list_write blk 0 (sub_list buff bo bs)) with hb1
      have hunif1 : ∀ b ∈ blocks1, b.length = bs := by
        intro b hb
        rcases List.mem_or_eq_of_mem_set hb with hmem | heqb
        · exact hunif b hmem
        · rw [heqb, list_write_length _ _ _ (by omega)]
          exact hblk
      have hlen1 : blocks1.length = blocks.length := List.length_set blocks i _
      have hf1 : blocks1.flatten = list_write blocks.flatten (i * bs + 0) (sub_list buff bo bs) :=
        flatten_set_write blocks bs i 0 (sub_list buff bo bs) blk hunif hget (by omega)
      obtain ⟨blocks2, hloop, hf2, hunif2, hlen2⟩ :=
        ih (i + 1) (bo + bs) (rest - bs) blocks1 hunif1 (by omega) (by omega) (by omega)
      refine ⟨blocks2, by rw [hstep, hloop], ?_, hunif2, by omega⟩
      rw [hf2, hf1, Nat.add_zero, hmul1]
      have hcomb := list_write_append blocks.flatten (sub_list buff bo bs)
        (sub_list buff (bo + bs) (rest - bs)) (i * bs) (by rw [hsub]; omega)
      rw [hsub] at hcomb
      rw [hcomb]
      congr 1
      rw [← sub_list_split buff bo bs (rest - bs)]
      congr 1
      omega
    · -- final partial block; the remaining iterations copy nothing
      have hsub : (sub_list buff bo rest).length = rest := sub_list_length buff bo rest (by omega)
      have hstep : copy_from_loop bs buff (m + 1) i bo rest blocks
          = copy_from_loop bs buff m (i + 1) (bo + rest) (rest - rest)
              (blocks.set i (list_write blk 0 (sub_list buff bo rest))) := by
        simp only [copy_from_loop, bque_item, hget, if_neg hgtb]
      set blocks1 := blocks.set i (list_write blk 0 (sub_list buff bo rest)) with hb1
      have hunif1 : ∀ b ∈ blocks1, b.length = bs := by
        intro b hb
        rcases List.mem_or_eq_of_mem_set hb with hmem | heqb
        · exact hunif b hmem
        · rw [heqb, list_write_length _ _ _ (by omega)]
          exact hblk
      have hlen1 : blocks1.length = blocks.length := List.length_set blocks i _
      have hf1 : blocks1.flatten = list_write blocks.flatten (i * bs + 0) (sub_list buff bo rest) :=
        flatten_set_write blocks bs i 0 (sub_list buff bo rest) blk hunif hget (by omega)
      obtain ⟨blocks2, hloop, hf2, hunif2, hlen2⟩ :=
        ih (i + 1) (bo + rest) (rest - rest) blocks1 hunif1 (by omega) (by omega) (by omega)
      refine ⟨blocks2, by rw [hstep, hloop], ?_, hunif2, by omega⟩
      rw [hf2, Nat.sub_self, sub_list_zero, list_write_nil, hf1, Nat.add_zero]

theorem copy_to_loop_eq (bs : Nat) (blocks : List (List Nat)) (hunif : ∀ b ∈ blocks, b.length = bs) :
    ∀ (n i bo rest : Nat) (buff : List Nat),
    i + n ≤ blocks.length → rest ≤ n * bs → bo + rest ≤ buff.length →
    copy_to_loop bs n i bo rest blocks buff
      = (true, list_write buff bo (sub_list blocks.flatten (i * bs) rest)) := by
  intro n
  induction n with
  | zero =>
    intro i bo rest buff hiB hrest hbuf
    have hr0 : rest = 0 := by omega
    rw [hr0, sub_list_zero, list_write_nil]
    rfl
  | succ m ih =>
    intro i bo rest buff hiB hrest hbuf
    have hilt : i < blocks.length := by omega
    have hget : blocks.get? i = some (blocks.get ⟨i, hilt⟩) := List.get?_eq_get hilt
    set blk := blocks.get ⟨i, hilt⟩ with hblkdef
    have hblk : blk.length = bs := hunif blk (List.get_mem blocks _ hilt)
    have hflen : blocks.flatten.length = blocks.length * bs := flatten_length_uniform blocks bs hunif
    have hmul1 : (i + 1) * bs = i * bs + bs := by ring
    have hmul2 : i * bs + bs ≤ blocks.length * bs := by
      have : i + 1 ≤ blocks.length := by omega
      calc i * bs + bs = (i + 1) * bs := by ring
        _ ≤ blocks.length * bs := Nat.mul_le_mul_right bs this
    have hms : (m + 1) * bs = m * bs + bs := by ring
    by_cases hgtb : rest > bs
    · have hstep : copy_to_loop bs (m + 1) i bo rest blocks buff
          = copy_to_loop bs m (i + 1) (bo + bs) (rest - bs) blocks
              (list_write buff bo (sub_list blk 0 bs)) := by
        simp only [copy_to_loop, bque_item, hget, if_pos hgtb]
      have hsb : sub_list blk 0 bs = sub_list blocks.flatten (i * bs) bs := by
        have := sub_list_flatten_block blocks bs i 0 bs blk hunif hget (by omega)
        rw [Nat.add_zero] at this
        exact this.symm
      have hsubA : (sub_list blocks.flatten (i * bs) bs).length = bs :=
        sub_list_length _ _ _ (by omega)
      have hbuff1 : (list_write buff bo (sub_list blocks.flatten (i * bs) bs)).length = buff.length :=
        list_write_length _ _ _ (by rw [hsubA]; omega)
      rw [hstep, hsb, ih (i + 1) (bo + bs) (rest - bs) _ (by omega) (by omega) (by rw [hbuff1]; omega)]
      have hcomb := list_write_append buff (sub_list blocks.flatten (i * bs) bs)
        (sub_list blocks.flatten (i * bs + bs) (rest - bs)) bo (by rw [hsubA]; omega)
      rw [hsubA] at hcomb
      rw [hmul1, hcomb]
      congr 2
      rw [← sub_list_split blocks.flatten (i * bs) bs (rest - bs)]
      congr 1
      omega
    · have hstep : copy_to_loop bs (m + 1) i bo rest blocks buff
          = copy_to_loop bs m (i + 1) (bo + rest) (rest - rest) blocks
              (list_write buff bo (sub_list blk 0 rest)) := by
        simp only [copy_to_loop, bque_item, hget, if_neg hgtb]
      have hsb : sub_list blk 0 rest = sub_list blocks.flatten (i * bs) rest := by
        have := sub_list_flatten_block blocks bs i 0 rest blk hunif hget (by omega)
        rw [Nat.add_zero] at this
        exact this.symm
      have hsubr : (sub_list blk 0 rest).length = rest :=
        sub_list_length blk 0 rest (by omega)
      have hbuff1 : (list_write buff bo (sub_list blk 0 rest)).length = buff.length :=
        list_write_length _ _ _ (by rw [hsubr]; omega)
      rw [hstep, Nat.sub_self,
        ih (i + 1) (bo + rest) 0 _ (by omega) (by omega) (by rw [hbuff1]; omega),
        sub_list_zero, list_write_nil, hsb]

/-! ### Characterization of rbuf_copy_from and rbuf_copy_to on valid ranges -/

theorem rbuf_copy_from_eq (ctx : rbuf_ctx) (buff : List Nat) (offs size : Nat)
    (hWF : WF ctx) (hbuf : size ≤ buff.length) (hlt : offs + size < ctx.buff_cap) :
    ∃ blocks2,
      rbuf_copy_from ctx buff offs size = (rbuf_res.ok, { ctx with bque := blocks2 }) ∧
      blocks2.flatten = list_write ctx.bque.flatten offs (buff.take size) ∧
      (∀ b ∈ blocks2, b.length = ctx.block_size) ∧ blocks2.length = ctx.bque.length := by
  have hbs := hWF.hbs
  have hcapU := hWF.hcapU
  have hcapc : ctx.buff_cap = ctx.block_num * ctx.block_size := by
    rw [hWF.hcap, Nat.mul_comm]
  have hns : (offs + size) % U32 = offs + size := Nat.mod_eq_of_lt (by omega)
  have h1 : offs / ctx.block_size * ctx.block_size + offs % ctx.block_size = offs :=
    Nat.div_add_mod' offs ctx.block_size
  have h2 : (offs + size) / ctx.block_size * ctx.block_size + (offs + size) % ctx.block_size
      = offs + size := Nat.div_add_mod' (offs + size) ctx.block_size
  have hm1 : offs % ctx.block_size < ctx.block_size := Nat.mod_lt _ hbs
  have hm2 : (offs + size) % ctx.block_size < ctx.block_size := Nat.mod_lt _ hbs
  have hsB : offs / ctx.block_size < ctx.block_num :=
    (Nat.div_lt_iff_lt_mul hbs).mpr (by omega)
  have hsBl : offs / ctx.block_size < ctx.bque.length := by rw [hWF.hlen]; omega
  have hget : ctx.bque.get? (offs / ctx.block_size)
      = some (ctx.bque.get ⟨offs / ctx.block_size, hsBl⟩) := List.get?_eq_get hsBl
  set blk := ctx.bque.get ⟨offs / ctx.block_size, hsBl⟩ with hblkdef
  have hblk : blk.length = ctx.block_size := hWF.hunif blk (List.get_mem _ _ hsBl)
  have hFlen : ctx.bque.flatten.length = ctx.block_num * ctx.block_size := by
    rw [flatten_length_uniform ctx.bque ctx.block_size hWF.hunif, hWF.hlen]
  have htakelen : (buff.take size).length = size := by
    rw [List.length_take]
    exact min_eq_left hbuf
  simp only [rbuf_copy_from, rbuf_copy_from_o, copy_from_phase, hns]
  rw [if_neg (by omega : ¬ offs + size > ctx.buff_cap)]
  dsimp only []
  by_cases hse : offs / ctx.block_size = (offs + size) / ctx.block_size
  · -- the range stays inside one block
    have h2s : offs / ctx.block_size * ctx.block_size + (offs + size) % ctx.block_size
        = offs + size := by rw [hse]; exact h2
    have hinb : offs % ctx.block_size + size ≤ ctx.block_size := by omega
    have hsub0 : sub_list buff 0 size = buff.take size := rfl
    have hf1 := flatten_set_write ctx.bque ctx.block_size (offs / ctx.block_size)
      (offs % ctx.block_size) (buff.take size) blk hWF.hunif hget (by omega)
    rw [if_pos hse]
    simp only [bque_item, hget]
    refine ⟨_, rfl, ?_, ?_, List.length_set _ _ _⟩
    · rw [hsub0, hf1, h1]
    · intro b hb
      rcases List.mem_or_eq_of_mem_set hb with hmem | heqb
      · exact hWF.hunif b hmem
      · rw [heqb, hsub0, list_write_length _ _ _ (by omega)]
        exact hblk
  · -- the range spans at least one block boundary
    have hsle : offs / ctx.block_size ≤ (offs + size) / ctx.block_size :=
      Nat.div_le_div_right (by omega)
    have hslt : offs / ctx.block_size < (offs + size) / ctx.block_size := by omega
    have heB : (offs + size) / ctx.block_size < ctx.block_num :=
      (Nat.div_lt_iff_lt_mul hbs).mpr (by omega)
    have hy1 : (offs / ctx.block_size + 1) * ctx.block_size
        = offs / ctx.block_size * ctx.block_size + ctx.block_size := by ring
    have hy2 : ((offs + size) / ctx.block_size + 1) * ctx.block_size
        = (offs + size) / ctx.block_size * ctx.block_size + ctx.block_size := by ring
    have hmulse : (offs / ctx.block_size + 1) * ctx.block_size
        ≤ ((offs + size) / ctx.block_size) * ctx.block_size :=
      Nat.mul_le_mul_right _ (by omega)
    have hcurtle : ctx.block_size - offs % ctx.block_size ≤ size := by omega
    have hecount : ((offs + size) / ctx.block_size + 1) % U32
        = (offs + size) / ctx.block_size + 1 := by
      have hdle : (offs + size) / ctx.block_size ≤ offs + size := Nat.div_le_self _ _
      exact Nat.mod_eq_of_lt (by omega)
    have hsubc : (sub_list buff 0 (ctx.block_size - offs % ctx.block_size)).length
        = ctx.block_size - offs % ctx.block_size := by
      simp only [sub_list, List.drop_zero, List.length_take]
      exact min_eq_left (by omega)
    have hf1 := flatten_set_write ctx.bque ctx.block_size (offs / ctx.block_size)
      (offs % ctx.block_size) (sub_list buff 0 (ctx.block_size - offs % ctx.block_size)) blk
      hWF.hunif hget (by rw [hsubc]; omega)
    set blocks1 := ctx.bque.set (offs / ctx.block_size)
      (list_write blk (offs % ctx.block_size)
        (sub_list buff 0 (ctx.block_size - offs % ctx.block_size))) with hb1def
    have hunif1 : ∀ b ∈ blocks1, b.length = ctx.block_size := by
      intro b hb
      rcases List.mem_or_eq_of_mem_set hb with hmem | heqb
      · exact hWF.hunif b hmem
      · rw [heqb, list_write_length _ _ _ (by rw [hsubc]; omega)]
        exact hblk
    have hlen1 : blocks1.length = ctx.bque.length := List.length_set _ _ _
    have hx : ((offs + size) / ctx.block_size + 1 - (offs / ctx.block_size + 1)) * ctx.block_size
        + (offs / ctx.block_size + 1) * ctx.block_size
        = ((offs + size) / ctx.block_size + 1) * ctx.block_size := by
      rw [← Nat.add_mul]
      congr 1
      omega
    obtain ⟨blocks2, hloop, hf2, hunif2, hlen2⟩ :=
      copy_from_loop_eq ctx.block_size buff
        ((offs + size) / ctx.block_size + 1 - (offs / ctx.block_size + 1))
        (offs / ctx.block_size + 1)
        (ctx.block_size - offs % ctx.block_size)
        (size - (ctx.block_size - offs % ctx.block_size))
        blocks1 hunif1 (by rw [hlen1, hWF.hlen]; omega) (by omega) (by omega)
    rw [if_neg hse]
    simp only [bque_item, hget, hecount]
    rw [hloop]
    refine ⟨blocks2, rfl, ?_, hunif2, by rw [hlen2, hlen1]⟩
    rw [hf2, hf1, h1]
    have hcomb := list_write_append ctx.bque.flatten
      (sub_list buff 0 (ctx.block_size - offs % ctx.block_size))
      (sub_list buff (ctx.block_size - offs % ctx.block_size)
        (size - (ctx.block_size - offs % ctx.block_size)))
      offs (by rw [hsubc, hFlen]; omega)
    rw [hsubc] at hcomb
    have hpos : (offs / ctx.block_size + 1) * ctx.block_size
        = offs + (ctx.block_size - offs % ctx.block_size) := by omega
    rw [hpos, hcomb]
    congr 1
    have hsplit := sub_list_split buff 0 (ctx.block_size - offs % ctx.block_size)
      (size - (ctx.block_size - offs % ctx.block_size))
    rw [Nat.zero_add] at hsplit
    rw [← hsplit]
    have hsz2 : ctx.block_size - offs % ctx.block_size
        + (size - (ctx.block_size - offs % ctx.block_size)) = size := by omega
    rw [hsz2]
    simp [sub_list]

theorem rbuf_copy_to_eq (ctx : rbuf_ctx) (dest : List Nat) (offs size : Nat)
    (hWF : WF ctx) (hsz : offs + size ≤ ctx.buff_size) (hlt : offs + size < ctx.buff_cap)
    (hdest : size ≤ dest.length) :
    rbuf_copy_to ctx dest offs size
      = (rbuf_res.ok, ctx, list_write dest 0 (sub_list ctx.bque.flatten offs size)) := by
  have hbs := hWF.hbs
  have hcapU := hWF.hcapU
  have hcapc : ctx.buff_cap = ctx.block_num * ctx.block_size := by
    rw [hWF.hcap, Nat.mul_comm]
  have hns : (offs + size) % U32 = offs + size := Nat.mod_eq_of_lt (by omega)
  have h1 : offs / ctx.block_size * ctx.block_size + offs % ctx.block_size = offs :=
    Nat.div_add_mod' offs ctx.block_size
  have h2 : (offs + size) / ctx.block_size * ctx.block_size + (offs + size) % ctx.block_size
      = offs + size := Nat.div_add_mod' (offs + size) ctx.block_size
  have hm1 : offs % ctx.block_size < ctx.block_size := Nat.mod_lt _ hbs
  have hm2 : (offs + size) % ctx.block_size < ctx.block_size := Nat.mod_lt _ hbs
  have hsB : offs / ctx.block_size < ctx.block_num :=
    (Nat.div_lt_iff_lt_mul hbs).mpr (by omega)
  have hsBl : offs / ctx.block_size < ctx.bque.length := by rw [hWF.hlen]; omega
  have hget : ctx.bque.get? (offs / ctx.block_size)
      = some (ctx.bque.get ⟨offs / ctx.block_size, hsBl⟩) := List.get?_eq_get hsBl
  set blk := ctx.bque.get ⟨offs / ctx.block_size, hsBl⟩ with hblkdef
  have hblk : blk.length = ctx.block_size := hWF.hunif blk (List.get_mem _ _ hsBl)
  have hFlen : ctx.bque.flatten.length = ctx.block_num * ctx.block_size := by
    rw [flatten_length_uniform ctx.bque ctx.block_size hWF.hunif, hWF.hlen]
  simp only [rbuf_copy_to, hns]
  rw [if_neg (by omega : ¬ offs > ctx.buff_size),
    if_neg (by omega : ¬ offs + size > ctx.buff_size)]
  by_cases hse : offs / ctx.block_size = (offs + size) / ctx.block_size
  · -- the range stays inside one block
    have h2s : offs / ctx.block_size * ctx.block_size + (offs + size) % ctx.block_size
        = offs + size := by rw [hse]; exact h2
    have hinb : offs % ctx.block_size + size ≤ ctx.block_size := by omega
    have hsb := sub_list_flatten_block ctx.bque ctx.block_size (offs / ctx.block_size)
      (offs % ctx.block_size) size blk hWF.hunif hget (by omega)
    rw [h1] at hsb
    rw [if_pos hse]
    simp only [bque_item, hget]
    rw [hsb]
  · -- the range spans at least one block boundary
    have hsle : offs / ctx.block_size ≤ (offs + size) / ctx.block_size :=
      Nat.div_le_div_right (by omega)
    have hslt : offs / ctx.block_size < (offs + size) / ctx.block_size := by omega
    have heB : (offs + size) / ctx.block_size < ctx.block_num :=
      (Nat.div_lt_iff_lt_mul hbs).mpr (by omega)
    have hy1 : (offs / ctx.block_size + 1) * ctx.block_size
        = offs / ctx.block_size * ctx.block_size + ctx.block_size := by ring
    have hy2 : ((offs + size) / ctx.block_size + 1) * ctx.block_size
        = (offs + size) / ctx.block_size * ctx.block_size + ctx.block_size := by ring
    have hmulse : (offs / ctx.block_size + 1) * ctx.block_size
        ≤ ((offs + size) / ctx.block_size) * ctx.block_size :=
      Nat.mul_le_mul_right _ (by omega)
    have hcurtle : ctx.block_size - offs % ctx.block_size ≤ size := by omega
    have hecount : ((offs + size) / ctx.block_size + 1) % U32
        = (offs + size) / ctx.block_size + 1 := by
      have hdle : (offs + size) / ctx.block_size ≤ offs + size := Nat.div_le_self _ _
      exact Nat.mod_eq_of_lt (by omega)
    have hsb1 := sub_list_flatten_block ctx.bque ctx.block_size (offs / ctx.block_size)
      (offs % ctx.block_size) (ctx.block_size - offs % ctx.block_size) blk hWF.hunif hget
      (by omega)
    rw [h1] at hsb1
    have hAlen : (sub_list ctx.bque.flatten offs (ctx.block_size - offs % ctx.block_size)).length
        = ctx.block_size - offs % ctx.block_size :=
      sub_list_length _ _ _ (by omega)
    have hbuff1 : (list_write dest 0 (sub_list blk (offs % ctx.block_size)
        (ctx.block_size - offs % ctx.block_size))).length = dest.length := by
      rw [← hsb1]
      exact list_write_length _ _ _ (by rw [hAlen]; omega)
    have hx : ((offs + size) / ctx.block_size + 1 - (offs / ctx.block_size + 1)) * ctx.block_size
        + (offs / ctx.block_size + 1) * ctx.block_size
        = ((offs + size) / ctx.block_size + 1) * ctx.block_size := by
      rw [← Nat.add_mul]
      congr 1
      omega
    have hloop := copy_to_loop_eq ctx.block_size ctx.bque hWF.hunif
      ((offs + size) / ctx.block_size + 1 - (offs / ctx.block_size + 1))
      (offs / ctx.block_size + 1)
      (ctx.block_size - offs % ctx.block_size)
      (size - (ctx.block_size - offs % ctx.block_size))
      (list_write dest 0 (sub_list blk (offs % ctx.block_size)
        (ctx.block_size - offs % ctx.block_size)))
      (by rw [hWF.hlen]; omega) (by omega) (by rw [hbuff1]; omega)
    rw [if_neg hse]
    simp only [bque_item, hget, hecount]
    rw [hloop]
    have hcomb := list_write_append dest
      (sub_list ctx.bque.flatten offs (ctx.block_size - offs % ctx.block_size))
      (sub_list ctx.bque.flatten (offs + (ctx.block_size - offs % ctx.block_size))
        (size - (ctx.block_size - offs % ctx.block_size)))
      0 (by rw [hAlen]; omega)
    rw [hAlen, Nat.zero_add] at hcomb
    have hpos : (offs / ctx.block_size + 1) * ctx.block_size
        = offs + (ctx.block_size - offs % ctx.block_size) := by omega
    rw [← hsb1, hpos, hcomb]
    have hsplit := sub_list_split ctx.bque.flatten offs
      (ctx.block_size - offs % ctx.block_size)
      (size - (ctx.block_size - offs % ctx.block_size))
    have hsz2 : ctx.block_size - offs % ctx.block_size
        + (size - (ctx.block_size - offs % ctx.block_size)) = size := by omega
    rw [hsz2] at hsplit
    rw [← hsplit]

/-! ### Helper lemmas for the claim theorems -/

theorem WF_rbuf_new (bs sm : Nat) (hbs : 0 < bs) (hsm : sm + bs ≤ U32) :
    WF (rbuf_new bs sm) := by
  refine ⟨hbs, hsm, rfl, ?_, ?_, ?_, ?_⟩
  · intro b hb
    simp [rbuf_new] at hb
  · simp [rbuf_new]
  · exact Nat.le_refl 0
  · simp only [rbuf_new, U32]
    omega

theorem copy_from_loop_length (bs : Nat) (buff : List Nat) :
    ∀ (n i bo rest : Nat) (blocks : List (List Nat)),
    (copy_from_loop bs buff n i bo rest blocks).2.length = blocks.length := by
  intro n
  induction n with
  | zero => intro i bo rest blocks; rfl
  | succ m ih =>
    intro i bo rest blocks
    simp only [copy_from_loop, bque_item]
    cases hg : blocks.get? i with
    | none => rfl
    | some blk =>
      simp only []
      rw [ih, List.length_set]

theorem copy_from_phase_shape (ctx1 : rbuf_ctx) (buff : List Nat) (offs new_size size : Nat) :
    ∃ (r : rbuf_res) (blocks2 : List (List Nat)),
      copy_from_phase ctx1 buff offs new_size size = (r, { ctx1 with bque := blocks2 })
      ∧ blocks2.length = ctx1.bque.length := by
  simp only [copy_from_phase]
  split
  · cases hg : bque_item ctx1.bque (offs / ctx1.block_size) with
    | none =>
      exact ⟨rbuf_res.err, ctx1.bque, rfl, rfl⟩
    | some blk =>
      exact ⟨rbuf_res.ok, _, rfl, List.length_set _ _ _⟩
  · cases hg : bque_item ctx1.bque (offs / ctx1.block_size) with
    | none =>
      exact ⟨rbuf_res.err, ctx1.bque, rfl, rfl⟩
    | some blk =>
      dsimp only []
      have hll := copy_from_loop_length ctx1.block_size buff
        ((new_size / ctx1.block_size + 1) % U32 - (offs / ctx1.block_size + 1))
        (offs / ctx1.block_size + 1)
        (ctx1.block_size - offs % ctx1.block_size)
        (size - (ctx1.block_size - offs % ctx1.block_size))
        (ctx1.bque.set (offs / ctx1.block_size)
          (list_write blk (offs % ctx1.block_size)
            (sub_list buff 0 (ctx1.block_size - offs % ctx1.block_size))))
      cases hl : copy_from_loop ctx1.block_size buff
        ((new_size / ctx1.block_size + 1) % U32 - (offs / ctx1.block_size + 1))
        (offs / ctx1.block_size + 1)
        (ctx1.block_size - offs % ctx1.block_size)
        (size - (ctx1.block_size - offs % ctx1.block_size))
        (ctx1.bque.set (offs / ctx1.block_size)
          (list_write blk (offs % ctx1.block_size)
            (sub_list buff 0 (ctx1.block_size - offs % ctx1.block_size)))) with
      | mk fl b2 =>
        rw [hl, List.length_set] at hll
        cases fl
        · exact ⟨rbuf_res.err, b2, rfl, hll⟩
        · exact ⟨rbuf_res.ok, b2, rfl, hll⟩

theorem rbuf_copy_from_o_no_resize (orc : alloc_oracle) (ctx : rbuf_ctx) (buff : List Nat)
    (offs size : Nat) (h : ¬ (offs + size) % U32 > ctx.buff_cap) :
    ∃ (r : rbuf_res) (blocks2 : List (List Nat)),
      rbuf_copy_from_o orc ctx buff offs size = (r, { ctx with bque := blocks2 })
      ∧ blocks2.length = ctx.bque.length := by
  simp only [rbuf_copy_from_o]
  rw [if_neg h]
  exact copy_from_phase_shape ctx buff offs ((offs + size) % U32) size

theorem rbuf_resize_o_ok_fields (orc : alloc_oracle) (ctx ctx2 : rbuf_ctx) (size : Nat)
    (h : rbuf_resize_o orc ctx size = (rbuf_res.ok, ctx2)) :
    ctx2.buff_size = size ∧
    ctx2.last_block_buff_size
      = (if size / ctx.block_size ≠ 0 ∧ size % ctx.block_size = 0
         then ctx.block_size else size % ctx.block_size) ∧
    ctx2.block_size = ctx.block_size ∧ ctx2.size_max = ctx.size_max := by
  simp only [rbuf_resize_o] at h
  repeat' split at h
  all_goals rw [Prod.mk.injEq] at h
  all_goals obtain ⟨hcon, h2⟩ := h
  all_goals subst h2
  all_goals simp_all

theorem last_fill_eq (bs size : Nat) :
    (if size / bs ≠ 0 ∧ size % bs = 0 then bs else size % bs)
      = if size % bs = 0 ∧ size ≠ 0 then bs else size % bs := by
  by_cases h0 : size % bs = 0
  · by_cases hq : size / bs = 0
    · have hz : size = 0 := by
        have hd := Nat.div_add_mod size bs
        rw [hq] at hd
        simp at hd
        omega
      simp [h0, hq, hz]
    · have hne : size ≠ 0 := by
        intro hz
        rw [hz] at hq
        simp at hq
      simp [h0, hq, hne]
  · simp [h0]

theorem sub_list_of_write_take (dst src : List Nat) (o k : Nat)
    (h : o + src.length ≤ dst.length) (hk : k ≤ src.length) :
    sub_list (list_write dst o src) o k = src.take k := by
  have h1 := sub_list_of_write dst src o h
  have h2 : sub_list (list_write dst o src) o k
      = (sub_list (list_write dst o src) o src.length).take k := by
    simp only [sub_list]
    rw [List.take_take, min_eq_left hk]
  rw [h2, h1]

theorem sub_list_of_write_drop (dst src : List Nat) (o k : Nat)
    (h : o + src.length ≤ dst.length) (hk : k ≤ src.length) :
    sub_list (list_write dst o src) (o + k) (src.length - k) = src.drop k := by
  have hto : (dst.take o).length = o := by
    simp only [List.length_take]
    omega
  have hdrop : (list_write dst o src).drop o = src ++ dst.drop (o + src.length) := by
    simp only [list_write, List.append_assoc]
    exact List.drop_left' hto
  have hlen : (src.drop k).length = src.length - k := List.length_drop _ _
  calc sub_list (list_write dst o src) (o + k) (src.length - k)
      = (((list_write dst o src).drop o).drop k).take (src.length - k) := by
        simp [sub_list, List.drop_drop]
    _ = ((src ++ dst.drop (o + src.length)).drop k).take (src.length - k) := by rw [hdrop]
    _ = (src.drop k ++ dst.drop (o + src.length)).take (src.length - k) := by
        rw [List.drop_append_of_le_length hk]
    _ = src.drop k := List.take_left' hlen

/-! ### Claim theorems -/

/-- C1: for every size with size ≤ size_max, rbuf_resize(ctx, size) succeeds
(given a block store that does not fail allocation), and a subsequent
rbuf_status reports buff_size equal to size and block_num equal to
ceil(size / block_size), computed as q = size / block_size,
r = size mod block_size, required blocks = q if r = 0 else q + 1. -/
theorem C1_resize_then_status (ctx : rbuf_ctx) (size : Nat) (hWF : WF ctx)
    (hsz : size ≤ ctx.size_max) :
    ∃ ctx2, rbuf_resize ctx size = (rbuf_res.ok, ctx2) ∧
      rbuf_status ctx2
        = { block_num := if size % ctx.block_size = 0
                         then size / ctx.block_size
                         else size / ctx.block_size + 1,
            buff_size := size } := by
  refine ⟨resized_ctx ctx size, rbuf_resize_eq ctx size hWF hsz, ?_⟩
  simp only [rbuf_status, resized_ctx, required_blocks, rbuf_stat.mk.injEq]
  by_cases h0 : size % ctx.block_size = 0 <;> simp [h0]

theorem C1_witness :
    ∃ ctx2, rbuf_resize (rbuf_new 4 16) 6 = (rbuf_res.ok, ctx2) ∧
      rbuf_status ctx2
        = { block_num := if 6 % (rbuf_new 4 16).block_size = 0
                         then 6 / (rbuf_new 4 16).block_size
                         else 6 / (rbuf_new 4 16).block_size + 1,
            buff_size := 6 } :=
  C1_resize_then_status (rbuf_new 4 16) 6
    (WF_rbuf_new 4 16 (by decide) (by decide)) (by decide)

/-- C4: for every size with size > size_max, rbuf_resize(ctx, size) fails
with BadSize and returns the context completely unchanged (cached fields
and held blocks), whatever the allocation oracle. -/
theorem C4_resize_too_large (orc : alloc_oracle) (ctx : rbuf_ctx) (size : Nat)
    (h : ctx.size_max < size) :
    rbuf_resize_o orc ctx size = (rbuf_res.err_bad_size, ctx) := by
  simp only [rbuf_resize_o]
  rw [if_pos (by omega)]

theorem C4_witness :
    rbuf_resize_o no_fail (rbuf_new 4 16) 17 = (rbuf_res.err_bad_size, rbuf_new 4 16) :=
  C4_resize_too_large no_fail (rbuf_new 4 16) 17 (by decide)

/-- C5: after every successful rbuf_resize (with any allocation oracle,
including a resize to the current size), last_block_buff_size equals
size mod block_size, except when size is a nonzero exact multiple of
block_size, in which case it equals block_size. -/
theorem C5_last_block_fill (orc : alloc_oracle) (ctx ctx2 : rbuf_ctx) (size : Nat)
    (hbs : 0 < ctx.block_size)
    (h : rbuf_resize_o orc ctx size = (rbuf_res.ok, ctx2)) :
    ctx2.last_block_buff_size
      = if size % ctx.block_size = 0 ∧ size ≠ 0
        then ctx.block_size else size % ctx.block_size := by
  have hf := (rbuf_resize_o_ok_fields orc ctx ctx2 size h).2.1
  rw [hf]
  exact last_fill_eq ctx.block_size size

theorem C5_witness :
    ({ bque := [List.replicate 4 0, List.replicate 4 0], block_size := 4, size_max := 16,
       block_num := 2, buff_cap := 8, buff_size := 8,
       last_block_buff_size := 4 } : rbuf_ctx).last_block_buff_size
      = if 8 % (rbuf_new 4 16).block_size = 0 ∧ 8 ≠ 0
        then (rbuf_new 4 16).block_size else 8 % (rbuf_new 4 16).block_size :=
  C5_last_block_fill no_fail (rbuf_new 4 16)
    { bque := [List.replicate 4 0, List.replicate 4 0], block_size := 4, size_max := 16,
      block_num := 2, buff_cap := 8, buff_size := 8, last_block_buff_size := 4 }
    8 (by decide) (by decide)

/-- C9: on an empty buffer (no blocks held, logical size zero), the
zero-length read rbuf_copy_to(ctx, buff, 0, 0) passes both the BadOffset
and BadSize checks yet returns Generic, because the implementation always
requests a block handle for the starting block index even when the length
is zero; rbuf_copy_from(ctx, buff, 0, 0) likewise returns Generic. -/
theorem C9_zero_length_on_empty (ctx : rbuf_ctx) (dest src : List Nat)
    (hq : ctx.bque = []) (hbn : ctx.block_num = 0) (hcap : ctx.buff_cap = 0)
    (hbsz : ctx.buff_size = 0) :
    rbuf_copy_to ctx dest 0 0 = (rbuf_res.err, ctx, dest) ∧
    rbuf_copy_from ctx src 0 0 = (rbuf_res.err, ctx) := by
  constructor
  · simp [rbuf_copy_to, hbsz, hq, bque_item, U32]
  · simp [rbuf_copy_from, rbuf_copy_from_o, copy_from_phase, hcap, hq, bque_item, U32]

theorem C9_witness :
    rbuf_copy_to (rbuf_new 512 1024) [7] 0 0 = (rbuf_res.err, rbuf_new 512 1024, [7]) ∧
    rbuf_copy_from (rbuf_new 512 1024) [7] 0 0 = (rbuf_res.err, rbuf_new 512 1024) :=
  C9_zero_length_on_empty (rbuf_new 512 1024) [7] [7] rfl rfl rfl rfl

/-- C3 counterexample: on a buffer of logical size 8 (two full 4-byte
blocks), a read with offset 8 and length 2^32 - 7 has offset ≤ logical_size
and offset + length > logical_size, so the claim demands BadSize; the code
computes the wrapped u32 sum 1, passes the BadSize check, and returns
Generic from the block-handle request instead. -/
theorem C3_counterexample :
    let ctx : rbuf_ctx :=
      { bque := [List.replicate 4 0, List.replicate 4 0], block_size := 4, size_max := 16,
        block_num := 2, buff_cap := 8, buff_size := 8, last_block_buff_size := 4 }
    8 ≤ ctx.buff_size ∧ ctx.buff_size < 8 + (U32 - 7) ∧
    (rbuf_copy_to ctx [0] 8 (U32 - 7)).1 = rbuf_res.err := by decide

/-- C3 (amended): rbuf_copy_to fails with BadOffset whenever
offset > logical_size (unconditionally, as the claim states: the check
compares the offset alone); it fails with BadSize whenever
offset ≤ logical_size and offset + length > logical_size, provided
offset + length < 2^32 (only this check compares the wrapped u32 sum
against logical_size); in both failure cases the context and the
destination buffer are returned unchanged. -/
theorem C3_copy_to_checks (ctx : rbuf_ctx) (dest : List Nat) (offs size : Nat) :
    (ctx.buff_size < offs →
      rbuf_copy_to ctx dest offs size = (rbuf_res.err_bad_offs, ctx, dest)) ∧
    (offs ≤ ctx.buff_size → ctx.buff_size < offs + size → offs + size < U32 →
      rbuf_copy_to ctx dest offs size = (rbuf_res.err_bad_size, ctx, dest)) := by
  constructor
  · intro h
    simp only [rbuf_copy_to]
    rw [if_pos (by omega)]
  · intro h1 h2 hnw
    simp only [rbuf_copy_to, Nat.mod_eq_of_lt hnw]
    rw [if_neg (by omega), if_pos (by omega)]

theorem C3_witness :
    rbuf_copy_to (rbuf_new 512 1024) [0] 1 1
      = (rbuf_res.err_bad_offs, rbuf_new 512 1024, [0]) ∧
    rbuf_copy_to (rbuf_new 512 1024) [0] 0 1
      = (rbuf_res.err_bad_size, rbuf_new 512 1024, [0]) :=
  ⟨(C3_copy_to_checks (rbuf_new 512 1024) [0] 1 1).1 (by decide),
   (C3_copy_to_checks (rbuf_new 512 1024) [0] 0 1).2 (by decide) (by decide) (by decide)⟩

/-- C6 counterexample: on a fresh buffer (capacity 0), a copy-in with
offset = length = 2^31 has offset + length = 2^32 > capacity, so the claim
demands an implicit resize (to a size above size_max, hence a verbatim
BadSize failure); the code computes the wrapped u32 sum 0, skips the
resize entirely, and returns Generic with the context unchanged. -/
theorem C6_counterexample :
    (rbuf_new 512 1024).buff_cap < 2147483648 + 2147483648 ∧
    rbuf_copy_from (rbuf_new 512 1024) [] 2147483648 2147483648
      = (rbuf_res.err, rbuf_new 512 1024) := by decide

/-- C6 (amended): provided offset + length < 2^32, rbuf_copy_from performs
an implicit resize to offset + length if and only if offset + length
exceeds the cached capacity: when it does and the resize fails, that
failure and the post-resize context are returned verbatim without any
copy; when the resize succeeds, the resized logical size offset + length
is visible in the final context; and when offset + length ≤ capacity no
resize happens — block count, capacity, logical size, last-block fill and
the number of held blocks are all unchanged. -/
theorem C6_implicit_resize (orc : alloc_oracle) (ctx : rbuf_ctx) (buff : List Nat)
    (offs size : Nat) (hnw : offs + size < U32) :
    (ctx.buff_cap < offs + size →
      (∀ res ctx1, rbuf_resize_o orc ctx (offs + size) = (res, ctx1) →
        res ≠ rbuf_res.ok → rbuf_copy_from_o orc ctx buff offs size = (res, ctx1)) ∧
      (∀ ctx1, rbuf_resize_o orc ctx (offs + size) = (rbuf_res.ok, ctx1) →
        (rbuf_copy_from_o orc ctx buff offs size).2.buff_size = offs + size)) ∧
    (offs + size ≤ ctx.buff_cap →
      (rbuf_copy_from_o orc ctx buff offs size).2.block_num = ctx.block_num ∧
      (rbuf_copy_from_o orc ctx buff offs size).2.buff_cap = ctx.buff_cap ∧
      (rbuf_copy_from_o orc ctx buff offs size).2.buff_size = ctx.buff_size ∧
      (rbuf_copy_from_o orc ctx buff offs size).2.last_block_buff_size
        = ctx.last_block_buff_size ∧
      (rbuf_copy_from_o orc ctx buff offs size).2.bque.length = ctx.bque.length) := by
  constructor
  · intro hgt
    constructor
    · intro res ctx1 hres hne
      simp only [rbuf_copy_from_o, Nat.mod_eq_of_lt hnw]
      rw [if_pos (by omega), hres]
      cases res
      · exact absurd rfl hne
      · rfl
      · rfl
      · rfl
      · rfl
    · intro ctx1 hres
      have hbsz1 := (rbuf_resize_o_ok_fields orc ctx ctx1 (offs + size) hres).1
      obtain ⟨r, b2, hphase, hlen⟩ :=
        copy_from_phase_shape ctx1 buff offs (offs + size) size
      simp only [rbuf_copy_from_o, Nat.mod_eq_of_lt hnw]
      rw [if_pos (by omega), hres]
      dsimp only []
      rw [hphase]
      exact hbsz1
  · intro hle
    obtain ⟨r, b2, hcf, hlen⟩ := rbuf_copy_from_o_no_resize orc ctx buff offs size
      (by rw [Nat.mod_eq_of_lt hnw]; omega)
    rw [hcf]
    exact ⟨rfl, rfl, rfl, rfl, hlen⟩

theorem C6_witness :
    (((rbuf_new 4 16).buff_cap < 0 + 20 →
      (∀ res ctx1, rbuf_resize_o no_fail (rbuf_new 4 16) (0 + 20) = (res, ctx1) →
        res ≠ rbuf_res.ok →
        rbuf_copy_from_o no_fail (rbuf_new 4 16) [] 0 20 = (res, ctx1)) ∧
      (∀ ctx1, rbuf_resize_o no_fail (rbuf_new 4 16) (0 + 20) = (rbuf_res.ok, ctx1) →
        (rbuf_copy_from_o no_fail (rbuf_new 4 16) [] 0 20).2.buff_size = 0 + 20)) ∧
    (0 + 20 ≤ (rbuf_new 4 16).buff_cap →
      (rbuf_copy_from_o no_fail (rbuf_new 4 16) [] 0 20).2.block_num
        = (rbuf_new 4 16).block_num ∧
      (rbuf_copy_from_o no_fail (rbuf_new 4 16) [] 0 20).2.buff_cap
        = (rbuf_new 4 16).buff_cap ∧
      (rbuf_copy_from_o no_fail (rbuf_new 4 16) [] 0 20).2.buff_size
        = (rbuf_new 4 16).buff_size ∧
      (rbuf_copy_from_o no_fail (rbuf_new 4 16) [] 0 20).2.last_block_buff_size
        = (rbuf_new 4 16).last_block_buff_size ∧
      (rbuf_copy_from_o no_fail (rbuf_new 4 16) [] 0 20).2.bque.length
        = (rbuf_new 4 16).bque.length)) :=
  C6_implicit_resize no_fail (rbuf_new 4 16) [] 0 20 (by decide)

/-- C10: if rbuf_resize fails partway through growth — the k-th
bque_enqueue fails after k earlier appends succeeded in this call — none of
the cached fields block_num, buff_cap, buff_size, last_block_buff_size is
modified, while the block store physically holds k more blocks than
block_num records. -/
theorem C10_partial_growth (orc : alloc_oracle) (ctx : rbuf_ctx) (size k : Nat)
    (hlen : ctx.bque.length = ctx.block_num)
    (hsm : size ≤ ctx.size_max)
    (hk : k < required_blocks ctx.block_size size - ctx.block_num)
    (hk1 : 1 ≤ k)
    (hfail : orc k ≠ bque_res.ok) (hpre : ∀ j, j < k → orc j = bque_res.ok) :
    ∃ ctx2, rbuf_resize_o orc ctx size
        = ((if orc k = bque_res.err_no_mem then rbuf_res.err_no_mem else rbuf_res.err),
           ctx2) ∧
      ctx2.block_num = ctx.block_num ∧ ctx2.buff_cap = ctx.buff_cap ∧
      ctx2.buff_size = ctx.buff_size ∧
      ctx2.last_block_buff_size = ctx.last_block_buff_size ∧
      ctx2.bque.length = ctx.bque.length + k ∧
      ctx2.block_num < ctx2.bque.length := by
  have hreq : size / ctx.block_size + (if size % ctx.block_size ≠ 0 then 1 else 0)
      = required_blocks ctx.block_size size := rfl
  have hgt : ctx.block_num < required_blocks ctx.block_size size := by omega
  have hgrow := grow_blocks_fail orc ctx.block_size k 0
      (required_blocks ctx.block_size size - ctx.block_num) ctx.bque
      (by intro j hj; rw [Nat.zero_add]; exact hpre j hj)
      (by rw [Nat.zero_add]; exact hfail) hk
  rw [Nat.zero_add] at hgrow
  simp only [rbuf_resize_o]
  rw [if_neg (by omega)]
  simp only [hreq]
  rw [if_pos hgt, hgrow]
  cases horc : orc k with
  | ok => exact absurd horc hfail
  | err =>
    refine ⟨{ ctx with
        bque := ctx.bque ++ List.replicate k (List.replicate ctx.block_size 0) },
      by simp, rfl, rfl, rfl, rfl, by simp, ?_⟩
    simp only [List.length_append, List.length_replicate]
    omega
  | err_no_mem =>
    refine ⟨{ ctx with
        bque := ctx.bque ++ List.replicate k (List.replicate ctx.block_size 0) },
      by simp, rfl, rfl, rfl, rfl, by simp, ?_⟩
    simp only [List.length_append, List.length_replicate]
    omega

theorem C10_witness :
    ∃ ctx2, rbuf_resize_o (fun j => if j = 0 then bque_res.ok else bque_res.err_no_mem)
        (rbuf_new 4 16) 16
        = ((if (fun j => if j = 0 then bque_res.ok else bque_res.err_no_mem) 1
              = bque_res.err_no_mem
            then rbuf_res.err_no_mem else rbuf_res.err), ctx2) ∧
      ctx2.block_num = (rbuf_new 4 16).block_num ∧
      ctx2.buff_cap = (rbuf_new 4 16).buff_cap ∧
      ctx2.buff_size = (rbuf_new 4 16).buff_size ∧
      ctx2.last_block_buff_size = (rbuf_new 4 16).last_block_buff_size ∧
      ctx2.bque.length = (rbuf_new 4 16).bque.length + 1 ∧
      ctx2.block_num < ctx2.bque.length :=
  C10_partial_growth (fun j => if j = 0 then bque_res.ok else bque_res.err_no_mem)
    (rbuf_new 4 16) 16 1 rfl (by decide) (by decide) (by decide) (by decide)
    (by decide)

/-- C2 counterexample: with block_size 4, resize the buffer to logical
length 4, then copy in a 4-byte sequence at offset 0 (O + L = N).  The
claim demands success, but the code computes ending_block_idx = 1 and
requests block 1, which does not exist, so the copy-in returns Generic. -/
theorem C2_counterexample :
    (rbuf_resize (rbuf_new 4 16) 4).1 = rbuf_res.ok ∧
    (rbuf_resize (rbuf_new 4 16) 4).2.buff_size = 4 ∧
    (rbuf_copy_from (rbuf_resize (rbuf_new 4 16) 4).2 [1, 2, 3, 4] 0 4).1
      = rbuf_res.err := by decide

/-- C2 (amended): for every well-formed buffer resized to logical length N,
every byte sequence S of length L and every offset O with O + L ≤ N,
provided the range does not end exactly at the capacity — that is,
O + L < N, or N is not a multiple of block_size — the copy-in of S at O
succeeds and a copy-out of L bytes at O succeeds and yields exactly S. -/
theorem C2_roundtrip (ctx : rbuf_ctx) (N O L : Nat) (S dest : List Nat)
    (hWF : WF ctx) (hN : N ≤ ctx.size_max) (hS : S.length = L)
    (hOL : O + L ≤ N) (hend : O + L < N ∨ N % ctx.block_size ≠ 0)
    (hdest : L ≤ dest.length) :
    ∃ ctx1 ctx2 : rbuf_ctx,
      rbuf_resize ctx N = (rbuf_res.ok, ctx1) ∧
      rbuf_copy_from ctx1 S O L = (rbuf_res.ok, ctx2) ∧
      (rbuf_copy_to ctx2 dest O L).1 = rbuf_res.ok ∧
      (rbuf_copy_to ctx2 dest O L).2.2.take L = S := by
  have hbs := hWF.hbs
  have h1 := rbuf_resize_eq ctx N hWF hN
  have hWF1 := resized_ctx_WF ctx N hWF hN
  have hcap1 : (resized_ctx ctx N).buff_cap
      = ctx.block_size * required_blocks ctx.block_size N := rfl
  have hbsz1 : (resized_ctx ctx N).buff_size = N := rfl
  have hlt1 : O + L < (resized_ctx ctx N).buff_cap := by
    rw [hcap1]
    rcases hend with hlt | hmod
    · have := le_required_blocks_mul ctx.block_size N hbs
      omega
    · have hq := Nat.div_add_mod N ctx.block_size
      have hr : N % ctx.block_size < ctx.block_size := Nat.mod_lt _ hbs
      have hreq2 : required_blocks ctx.block_size N = N / ctx.block_size + 1 := by
        simp [required_blocks, hmod]
      rw [hreq2]
      have hexp : ctx.block_size * (N / ctx.block_size + 1)
          = ctx.block_size * (N / ctx.block_size) + ctx.block_size := by ring
      omega
  obtain ⟨blocks2, hcf, hflat, hunif2, hlen2⟩ :=
    rbuf_copy_from_eq (resized_ctx ctx N) S O L hWF1 (by omega) hlt1
  have hWF2 : WF ({ resized_ctx ctx N with bque := blocks2 } : rbuf_ctx) := by
    refine ⟨hWF1.hbs, hWF1.hsm, ?_, hunif2, hWF1.hcap, hWF1.hsz, hWF1.hcapU⟩
    show blocks2.length = (resized_ctx ctx N).block_num
    rw [hlen2]
    exact hWF1.hlen
  have hSt : S.take L = S := by
    rw [← hS]
    exact List.take_length S
  have hF1len : (resized_ctx ctx N).bque.flatten.length
      = (resized_ctx ctx N).block_num * (resized_ctx ctx N).block_size := by
    rw [flatten_length_uniform _ _ hWF1.hunif, hWF1.hlen]
  have hc1 : (resized_ctx ctx N).buff_cap
      = (resized_ctx ctx N).block_num * (resized_ctx ctx N).block_size := by
    rw [hWF1.hcap, Nat.mul_comm]
  have hflat2 : sub_list blocks2.flatten O L = S := by
    rw [hflat, hSt, ← hS]
    exact sub_list_of_write (resized_ctx ctx N).bque.flatten S O (by omega)
  have hct := rbuf_copy_to_eq ({ resized_ctx ctx N with bque := blocks2 } : rbuf_ctx)
    dest O L hWF2
    (by show O + L ≤ (resized_ctx ctx N).buff_size; omega)
    (by show O + L < (resized_ctx ctx N).buff_cap; omega) hdest
  refine ⟨resized_ctx ctx N, { resized_ctx ctx N with bque := blocks2 }, h1, hcf,
    by rw [hct], ?_⟩
  rw [hct]
  show (list_write dest 0
    (sub_list ({ resized_ctx ctx N with bque := blocks2 } : rbuf_ctx).bque.flatten O L)).take L
    = S
  rw [show ({ resized_ctx ctx N with bque := blocks2 } : rbuf_ctx).bque = blocks2 from rfl,
    hflat2]
  simp only [list_write, List.take_zero, List.nil_append, Nat.zero_add]
  rw [← hS, List.take_left]

theorem C2_witness :
    ∃ ctx1 ctx2 : rbuf_ctx,
      rbuf_resize (rbuf_new 4 16) 6 = (rbuf_res.ok, ctx1) ∧
      rbuf_copy_from ctx1 [10, 20, 30, 40] 1 4 = (rbuf_res.ok, ctx2) ∧
      (rbuf_copy_to ctx2 [0, 0, 0, 0] 1 4).1 = rbuf_res.ok ∧
      (rbuf_copy_to ctx2 [0, 0, 0, 0] 1 4).2.2.take 4 = [10, 20, 30, 40] :=
  C2_roundtrip (rbuf_new 4 16) 6 1 4 [10, 20, 30, 40] [0, 0, 0, 0]
    (WF_rbuf_new 4 16 (by decide) (by decide)) (by decide) (by decide) (by decide)
    (Or.inl (by decide)) (by decide)

set_option maxRecDepth 8000 in
/-- C7: with block_size = 512, a copy-in at offset 500 of length 40 into a
buffer resized to 540 splits into exactly two sub-copies — 12 bytes at
intra-block offset 500 of block 0, then 28 bytes at intra-block offset 0 of
block 1 — and the mirror copy-out at offset 500 of length 40 gathers the
same two ranges back in logical order, yielding S. -/
theorem C7_boundary_split (S : List Nat) (hS : S.length = 40) :
    ∃ ctx1 ctx2 : rbuf_ctx,
      rbuf_resize (rbuf_new 512 1024) 540 = (rbuf_res.ok, ctx1) ∧
      rbuf_copy_from ctx1 S 500 40 = (rbuf_res.ok, ctx2) ∧
      ctx2.bque.length = 2 ∧
      sub_list (ctx2.bque.getD 0 []) 500 12 = S.take 12 ∧
      sub_list (ctx2.bque.getD 1 []) 0 28 = S.drop 12 ∧
      rbuf_copy_to ctx2 (List.replicate 40 0) 500 40 = (rbuf_res.ok, ctx2, S) := by
  have hWF0 : WF (rbuf_new 512 1024) := WF_rbuf_new 512 1024 (by decide) (by decide)
  have h1 := rbuf_resize_eq (rbuf_new 512 1024) 540 hWF0 (by decide)
  have hWF1 := resized_ctx_WF (rbuf_new 512 1024) 540 hWF0 (by decide)
  have hcap1 : (resized_ctx (rbuf_new 512 1024) 540).buff_cap = 1024 := by decide
  have hbsz1 : (resized_ctx (rbuf_new 512 1024) 540).buff_size = 540 := by decide
  have hbs1 : (resized_ctx (rbuf_new 512 1024) 540).block_size = 512 := by decide
  have hblen1 : (resized_ctx (rbuf_new 512 1024) 540).bque.length = 2 := by decide
  have hF1 : (resized_ctx (rbuf_new 512 1024) 540).bque.flatten.length = 1024 := by decide
  obtain ⟨blocks2, hcf, hflat, hunif2, hlen2⟩ :=
    rbuf_copy_from_eq (resized_ctx (rbuf_new 512 1024) 540) S 500 40 hWF1 (by omega)
      (by rw [hcap1]; decide)
  have hl2 : blocks2.length = 2 := by rw [hlen2, hblen1]
  obtain ⟨b0, b1, hb01⟩ : ∃ b0 b1, blocks2 = [b0, b1] := by
    rcases blocks2 with _ | ⟨x, tl0⟩
    · exfalso
      simp only [List.length_nil] at hl2
      omega
    rcases tl0 with _ | ⟨y, tl1⟩
    · exfalso
      simp only [List.length_cons, List.length_nil] at hl2
      omega
    rcases tl1 with _ | ⟨z, tl2⟩
    · exact ⟨x, y, rfl⟩
    · exfalso
      simp only [List.length_cons] at hl2
      omega
  subst hb01
  have hSt : S.take 40 = S := by
    rw [← hS]
    exact List.take_length S
  rw [hSt] at hflat
  have hunifX : ∀ b ∈ [b0, b1], b.length = 512 := by
    intro b hb
    rw [← hbs1]
    exact hunif2 b hb
  have hget0 : ([b0, b1] : List (List Nat)).get? 0 = some b0 := rfl
  have hget1 : ([b0, b1] : List (List Nat)).get? 1 = some b1 := rfl
  have hSlen40 : 500 + S.length ≤ 1024 := by omega
  have hSl : 500 + S.length
      ≤ (resized_ctx (rbuf_new 512 1024) 540).bque.flatten.length := by
    rw [hF1]
    omega
  -- block 0 holds S.take 12 at intra-block offset 500
  have hblk0 : sub_list b0 500 12 = S.take 12 := by
    have ha := sub_list_flatten_block [b0, b1] 512 0 500 12 b0 hunifX hget0 (by omega)
    have hb := sub_list_of_write_take
      (resized_ctx (rbuf_new 512 1024) 540).bque.flatten S 500 12 hSl (by omega)
    rw [show (0 : Nat) * 512 + 500 = 500 from rfl] at ha
    rw [← ha, hflat, hb]
  -- block 1 holds S.drop 12 at intra-block offset 0
  have hblk1 : sub_list b1 0 28 = S.drop 12 := by
    have ha := sub_list_flatten_block [b0, b1] 512 1 0 (S.length - 12) b1 hunifX hget1
      (by omega)
    have hb := sub_list_of_write_drop
      (resized_ctx (rbuf_new 512 1024) 540).bque.flatten S 500 12 hSl (by omega)
    rw [show (1 : Nat) * 512 + 0 = 500 + 12 from rfl] at ha
    rw [show (28 : Nat) = S.length - 12 from by omega, ← ha, hflat, hb]
  -- the copy-out gathers the same two ranges
  have hWF2 : WF ({ resized_ctx (rbuf_new 512 1024) 540 with bque := [b0, b1] } : rbuf_ctx) := by
    refine ⟨hWF1.hbs, hWF1.hsm, ?_, hunif2, hWF1.hcap, hWF1.hsz, hWF1.hcapU⟩
    show ([b0, b1] : List (List Nat)).length = (resized_ctx (rbuf_new 512 1024) 540).block_num
    exact hlen2.trans hWF1.hlen
  have hct := rbuf_copy_to_eq
    ({ resized_ctx (rbuf_new 512 1024) 540 with bque := [b0, b1] } : rbuf_ctx)
    (List.replicate 40 0) 500 40 hWF2
    (by show (500 : Nat) + 40 ≤ (resized_ctx (rbuf_new 512 1024) 540).buff_size
        rw [hbsz1])
    (by show (500 : Nat) + 40 < (resized_ctx (rbuf_new 512 1024) 540).buff_cap
        rw [hcap1]
        decide)
    (by simp)
  have hread : sub_list
      ({ resized_ctx (rbuf_new 512 1024) 540 with bque := [b0, b1] } : rbuf_ctx).bque.flatten
      500 40 = S := by
    show sub_list ([b0, b1] : List (List Nat)).flatten 500 40 = S
    rw [hflat, ← hS]
    exact sub_list_of_write _ S 500 hSl
  have hwr : list_write (List.replicate 40 0) 0 S = S := by
    simp only [list_write, List.take_zero, List.nil_append, Nat.zero_add, hS,
      List.drop_replicate, Nat.sub_self, List.replicate_zero, List.append_nil]
  rw [hread, hwr] at hct
  refine ⟨resized_ctx (rbuf_new 512 1024) 540,
    { resized_ctx (rbuf_new 512 1024) 540 with bque := [b0, b1] }, h1, hcf,
    rfl, ?_, ?_, hct⟩
  · show sub_list (([b0, b1] : List (List Nat)).getD 0 []) 500 12 = S.take 12
    rw [show ([b0, b1] : List (List Nat)).getD 0 [] = b0 from rfl]
    exact hblk0
  · show sub_list (([b0, b1] : List (List Nat)).getD 1 []) 0 28 = S.drop 12
    rw [show ([b0, b1] : List (List Nat)).getD 1 [] = b1 from rfl]
    exact hblk1

theorem C7_witness :
    ∃ ctx1 ctx2 : rbuf_ctx,
      rbuf_resize (rbuf_new 512 1024) 540 = (rbuf_res.ok, ctx1) ∧
      rbuf_copy_from ctx1 (List.replicate 40 9) 500 40 = (rbuf_res.ok, ctx2) ∧
      ctx2.bque.length = 2 ∧
      sub_list (ctx2.bque.getD 0 []) 500 12 = (List.replicate 40 9).take 12 ∧
      sub_list (ctx2.bque.getD 1 []) 0 28 = (List.replicate 40 9).drop 12 ∧
      rbuf_copy_to ctx2 (List.replicate 40 0) 500 40
        = (rbuf_res.ok, ctx2, List.replicate 40 9) :=
  C7_boundary_split (List.replicate 40 9) (by simp)

end RBuf
